import Mathlib

/-!
Verification of the word-list text-analysis core of `05_Word_Lists.ipynb`:
the tokenizer `text_to_words`, the membership counter `count_occurences`,
the raw word counter `word_count`, and a spec-modelled AFINN-style valence
scorer.  Python strings are modelled as lists of Unicode scalar values
(`List Char`); `str.lower` is modelled by its ASCII case mapping
(`Char.toLower`), which is all the punctuation set and the claims exercise.
-/

namespace WordLists

/-- The set of code points CPython's `str.split()` treats as whitespace
(`Py_UNICODE_ISSPACE`). -/
def isPySpaceNat (n : Nat) : Bool :=
  (9 ≤ n && n ≤ 13) || (28 ≤ n && n ≤ 31) || n == 32 || n == 0x85 || n == 0xA0 ||
  n == 0x1680 || (0x2000 ≤ n && n ≤ 0x200A) || n == 0x2028 || n == 0x2029 ||
  n == 0x202F || n == 0x205F || n == 0x3000

/-- Whether a character is whitespace for Python's `str.split()`. -/
def isPySpace (c : Char) : Bool := isPySpaceNat c.toNat

/-- Whether a list of characters starts with a non-whitespace character. -/
def startsWord : List Char → Bool
  | [] => false
  | c :: _ => !isPySpace c

/-- Python `str.split()` with no separator argument: split on runs of
whitespace, discarding empty chunks at the ends. -/
def splitWs : List Char → List (List Char)
  | [] => []
  | c :: cs =>
    if isPySpace c then splitWs cs
    else
      if startsWord cs then
        match splitWs cs with
        | [] => [[c]]
        | w :: ws => (c :: w) :: ws
      else [c] :: splitWs cs

/-- The punctuation string `p` of `text_to_words`, as its list of characters:
`!"#$%&'()*+,-./:;<=>?@[\]^_` then backtick, braces, bar and tilde. -/
def punct : List Char :=
  ['!', '"', '#', '$', '%', '&', '\x27', '(', ')', '*', '+', ',', '-', '.', '/',
   ':', ';', '<', '=', '>', '?', '@', '[', '\\', ']', '^', '_', '\x60',
   '\x7b', '|', '\x7d', '~']

/-- Whether a character belongs to the punctuation set `punct`. -/
def isPunct (c : Char) : Bool := punct.contains c

/-- `text_to_words` from the notebook: lower-case the text, delete every
character of `punct`, then split on whitespace. -/
def text_to_words (text : List Char) : List (List Char) :=
  splitWs ((text.map Char.toLower).filter (fun c => !isPunct c))

/-- `word_count` from the notebook: `len(text_string.split())`. -/
def word_count (text_string : List Char) : Nat :=
  (splitWs text_string).length

/-- `count_occurences` from the notebook: keep the tokens of the text that
are members of the word list, return how many there are. -/
def count_occurences (text : List Char) (word_list : List (List Char)) : Nat :=
  ((text_to_words text).filter (fun w => word_list.contains w)).length

/-- Modelled from the spec: lexicon lookup of the ValenceScorer. The AFINN
scorer used by the notebook (`afinn.score`) lives in the external `afinn`
package, not in this repository; per the spec a lexicon maps each term to one
numeric weight, and terms absent from the lexicon contribute 0. -/
def lookup (lexicon : List (List Char × Rat)) (term : List Char) : Rat :=
  match lexicon.find? (fun e => e.1 == term) with
  | some e => e.2
  | none => 0

/-- Modelled from the spec: the AFINN-style ValenceScorer (`afinn.score` in
the notebook, implemented in the external `afinn` package). Spec: tokenize
the text; for each token, look up its weight in the lexicon; sum all found
weights, absent tokens contributing 0; return the sum. -/
def score (text : List Char) (lexicon : List (List Char × Rat)) : Rat :=
  ((text_to_words text).map (lookup lexicon)).sum

/-- Whether a character is an uppercase ASCII letter (code point in 65..90). -/
def isUpperAscii (c : Char) : Bool := 65 ≤ c.toNat && c.toNat ≤ 90

/-- Building a character from a code point below the surrogate range and
reading the code point back gives the same number. -/
theorem toNat_ofNat_of_lt {n : Nat} (h : n < 0xd800) : (Char.ofNat n).toNat = n := by
  unfold Char.ofNat
  rw [dif_pos (Or.inl h)]
  rfl

/-- The code-point action of `Char.toLower`: add 32 on the uppercase ASCII
range, identity elsewhere. -/
theorem toNat_toLower (c : Char) :
    (Char.toLower c).toNat =
      if 65 ≤ c.toNat ∧ c.toNat ≤ 90 then c.toNat + 32 else c.toNat := by
  unfold Char.toLower
  split
  case isTrue h =>
    rw [if_pos ⟨h.1, h.2⟩]
    exact toNat_ofNat_of_lt (by omega)
  case isFalse h =>
    rw [if_neg (fun hx => h ⟨hx.1, hx.2⟩)]

/-- `Char.toLower` fixes every character outside the uppercase ASCII range. -/
theorem toLower_eq_self (c : Char) (h : ¬(65 ≤ c.toNat ∧ c.toNat ≤ 90)) :
    Char.toLower c = c := by
  unfold Char.toLower
  rw [if_neg (fun hx => h ⟨hx.1, hx.2⟩)]

/-- Propositional characterisation of the Python whitespace set. -/
theorem isPySpaceNat_iff (n : Nat) : isPySpaceNat n = true ↔
    (9 ≤ n ∧ n ≤ 13) ∨ (28 ≤ n ∧ n ≤ 31) ∨ n = 32 ∨ n = 0x85 ∨ n = 0xA0 ∨
    n = 0x1680 ∨ (0x2000 ≤ n ∧ n ≤ 0x200A) ∨ n = 0x2028 ∨ n = 0x2029 ∨
    n = 0x202F ∨ n = 0x205F ∨ n = 0x3000 := by
  unfold isPySpaceNat
  simp
  tauto

/-- No code point strictly between the ASCII controls and U+0085 is Python
whitespace; in particular the ASCII letter ranges contain no whitespace. -/
theorem isPySpaceNat_eq_false_of_mid (n : Nat) (h1 : 33 ≤ n) (h2 : n ≤ 132) :
    isPySpaceNat n = false := by
  rw [Bool.eq_false_iff]
  intro hb
  have := (isPySpaceNat_iff n).mp hb
  omega

/-- Lower-casing does not change whether a character is whitespace. -/
theorem isPySpace_toLower (c : Char) : isPySpace (Char.toLower c) = isPySpace c := by
  unfold isPySpace
  rw [toNat_toLower]
  split
  case isTrue h =>
    rw [isPySpaceNat_eq_false_of_mid _ (by omega) (by omega),
      isPySpaceNat_eq_false_of_mid _ (by omega) (by omega)]
  case isFalse h => rfl

/-- Lower-casing never produces an uppercase ASCII letter. -/
theorem isUpperAscii_toLower (c : Char) : isUpperAscii (Char.toLower c) = false := by
  unfold isUpperAscii
  rw [toNat_toLower, Bool.eq_false_iff]
  intro hb
  rw [Bool.and_eq_true, decide_eq_true_eq, decide_eq_true_eq] at hb
  split at hb <;> omega

/-- Whitespace characters are fixed by lower-casing. -/
theorem toLower_of_isPySpace {c : Char} (h : isPySpace c = true) :
    Char.toLower c = c := by
  apply toLower_eq_self
  have := (isPySpaceNat_iff c.toNat).mp h
  omega

/-- Punctuation characters are fixed by lower-casing. -/
theorem toLower_of_isPunct (c : Char) (h : isPunct c = true) : Char.toLower c = c := by
  have hmem : c ∈ punct := by
    simpa [isPunct, List.contains, List.elem_eq_mem] using h
  fin_cases hmem <;> decide

/-- Whitespace characters are not punctuation characters. -/
theorem isPunct_eq_false_of_isPySpace (c : Char) (h : isPySpace c = true) :
    isPunct c = false := by
  rw [Bool.eq_false_iff]
  intro hp
  have hmem : c ∈ punct := by
    simpa [isPunct, List.contains, List.elem_eq_mem] using hp
  fin_cases hmem <;> revert h <;> decide

/-- The length of a filtered list is the sum, over the original list, of an
indicator of the filtering predicate: each occurrence contributes separately. -/
theorem length_filter_eq_sum_indicator (p : List Char → Bool) (l : List (List Char)) :
    (l.filter p).length = (l.map (fun w => if p w then 1 else 0)).sum := by
  induction l with
  | nil => rfl
  | cons w l ih => by_cases h : p w <;> simp [h, ih, Nat.add_comm]

/-- Membership in a word list is determined by the set of its members. -/
theorem contains_eq_of_mem_iff {L Lp : List (List Char)} (w : List Char)
    (h : w ∈ L ↔ w ∈ Lp) : L.contains w = Lp.contains w := by
  simp only [List.contains, List.elem_eq_mem]
  exact decide_eq_decide.mpr h

/-- C1: `count_occurences text wordSet` is the number of tokens of
`text_to_words text` that are members of `wordSet`, by exact string match,
counting each repeated occurrence separately (the count is the sum over the
token sequence of a membership indicator); in particular
`count_occurences "He went to the store." ["he", "him"] = 1`, the
capitalised "He" matching because tokenization lower-cases first. -/
theorem count_occurences_counts_matching_occurrences :
    (∀ (text : List Char) (wordSet : List (List Char)),
      count_occurences text wordSet =
        ((text_to_words text).map (fun w => if wordSet.contains w then 1 else 0)).sum)
    ∧ count_occurences "He went to the store.".toList ["he".toList, "him".toList] = 1 := by
  refine ⟨fun text wordSet => ?_, by decide⟩
  exact length_filter_eq_sum_indicator _ _

/-- C2: the tokenizer lower-cases, deletes (rather than replaces by spaces)
every character of the fixed ASCII punctuation set, and splits on whitespace
runs: the spec's concrete example holds, and a hyphenated/apostrophised text
shows the deleted characters joining the surrounding letters. -/
theorem text_to_words_example :
    text_to_words "Make this lower case and remove! All? Punctuation.".toList =
      ["make".toList, "this".toList, "lower".toList, "case".toList, "and".toList,
       "remove".toList, "all".toList, "punctuation".toList]
    ∧ text_to_words "Don't go over-the-top".toList =
      ["dont".toList, "go".toList, "overthetop".toList] := by
  constructor <;> decide

/-- C4: membership counting is monotonic non-decreasing under word-set union
(modelled on lists, whose concatenation has the union as its member set):
the count over `A ++ B` is at least the maximum of the two separate counts. -/
theorem count_occurences_union_mono (t : List Char) (A B : List (List Char)) :
    max (count_occurences t A) (count_occurences t B) ≤ count_occurences t (A ++ B) := by
  have key : ∀ C D : List (List Char), (∀ w, w ∈ C → w ∈ D) →
      count_occurences t C ≤ count_occurences t D := by
    intro C D hsub
    unfold count_occurences
    rw [← List.countP_eq_length_filter, ← List.countP_eq_length_filter]
    apply List.countP_mono_left
    intro w _ hw
    simp only [List.contains, List.elem_eq_mem, decide_eq_true_eq] at hw ⊢
    exact hsub w hw
  exact max_le (key A (A ++ B) fun w hw => List.mem_append_left _ hw)
    (key B (A ++ B) fun w hw => List.mem_append_right _ hw)

/-- C6: empty inputs are legal and yield zero, never an error: the count
against an empty word list is 0 for every text, and the count of the empty
text is 0 for every word list (in the embedding both are total functions). -/
theorem count_occurences_empty_inputs :
    (∀ text : List Char, count_occurences text [] = 0)
    ∧ (∀ W : List (List Char), count_occurences [] W = 0) := by
  constructor
  · intro text
    simp [count_occurences, List.contains]
  · intro W
    rfl

/-- C7: the word list behaves as a set: whenever `L` and `Lp` have the same
members (each is included in the other, so permutation and duplication are
irrelevant), the counts agree on every text. -/
theorem count_occurences_set_semantics (t : List Char) (L Lp : List (List Char))
    (h1 : ∀ w ∈ L, w ∈ Lp) (h2 : ∀ w ∈ Lp, w ∈ L) :
    count_occurences t L = count_occurences t Lp := by
  unfold count_occurences
  congr 1
  apply List.filter_congr
  intro w _
  exact contains_eq_of_mem_iff w ⟨h1 w, h2 w⟩

/-- Witness for C7: a duplicated, permuted word list gives the same count as
its deduplicated version on a concrete text. -/
theorem count_occurences_set_semantics_witness :
    (∀ w ∈ ["him".toList, "he".toList, "he".toList], w ∈ ["he".toList, "him".toList])
    ∧ (∀ w ∈ ["he".toList, "him".toList], w ∈ ["him".toList, "he".toList, "he".toList])
    ∧ count_occurences "He saw him and he left".toList ["him".toList, "he".toList, "he".toList]
      = count_occurences "He saw him and he left".toList ["he".toList, "him".toList] :=
  ⟨by decide, by decide,
    count_occurences_set_semantics _ _ _ (by decide) (by decide)⟩

/-- Splitting a string all of whose characters are whitespace gives no words. -/
theorem splitWs_eq_nil_of_all_space (s : List Char) (h : ∀ c ∈ s, isPySpace c = true) :
    splitWs s = [] := by
  induction s with
  | nil => rfl
  | cons c cs ih =>
    simp only [splitWs]
    rw [if_pos (h c (List.mem_cons_self c cs))]
    exact ih (fun d hd => h d (List.mem_cons_of_mem _ hd))

/-- Every word produced by `splitWs` is non-empty, and each of its characters
is a non-whitespace character of the input. -/
theorem splitWs_mem_spec (s : List Char) :
    ∀ w ∈ splitWs s, w ≠ [] ∧ ∀ c ∈ w, isPySpace c = false ∧ c ∈ s := by
  induction s with
  | nil => intro w hw; simp [splitWs] at hw
  | cons a cs ih =>
    intro w hw
    simp only [splitWs] at hw
    by_cases ha : isPySpace a = true
    · rw [if_pos ha] at hw
      obtain ⟨hne, hall⟩ := ih w hw
      exact ⟨hne, fun c hc =>
        ⟨(hall c hc).1, List.mem_cons_of_mem _ (hall c hc).2⟩⟩
    · rw [if_neg ha] at hw
      have ha' : isPySpace a = false := by simpa using ha
      by_cases hs : startsWord cs = true
      · rw [if_pos hs] at hw
        cases hsp : splitWs cs with
        | nil =>
          rw [hsp] at hw
          simp only [List.mem_singleton] at hw
          subst hw
          refine ⟨by simp, fun c hc => ?_⟩
          simp only [List.mem_singleton] at hc
          subst hc
          exact ⟨ha', List.mem_cons_self _ _⟩
        | cons w0 ws0 =>
          rw [hsp] at hw
          rcases List.mem_cons.mp hw with rfl | hw'
          · have h0 := ih w0 (by rw [hsp]; exact List.mem_cons_self _ _)
            refine ⟨by simp, fun c hc => ?_⟩
            rcases List.mem_cons.mp hc with rfl | hc'
            · exact ⟨ha', List.mem_cons_self _ _⟩
            · exact ⟨(h0.2 c hc').1, List.mem_cons_of_mem _ (h0.2 c hc').2⟩
          · have h0 := ih w (by rw [hsp]; exact List.mem_cons_of_mem _ hw')
            exact ⟨h0.1, fun c hc =>
              ⟨(h0.2 c hc).1, List.mem_cons_of_mem _ (h0.2 c hc).2⟩⟩
      · rw [if_neg hs] at hw
        rcases List.mem_cons.mp hw with rfl | hw'
        · refine ⟨by simp, fun c hc => ?_⟩
          simp only [List.mem_singleton] at hc
          subst hc
          exact ⟨ha', List.mem_cons_self _ _⟩
        · have h0 := ih w hw'
          exact ⟨h0.1, fun c hc =>
            ⟨(h0.2 c hc).1, List.mem_cons_of_mem _ (h0.2 c hc).2⟩⟩

/-- C5: every input made only of punctuation-set characters and whitespace,
the empty string included, tokenizes to the empty sequence. -/
theorem text_to_words_of_punct_space (t : List Char)
    (h : ∀ c ∈ t, isPunct c = true ∨ isPySpace c = true) :
    text_to_words t = [] := by
  unfold text_to_words
  apply splitWs_eq_nil_of_all_space
  intro d hd
  rw [List.mem_filter] at hd
  obtain ⟨hdm, hdk⟩ := hd
  rw [List.mem_map] at hdm
  obtain ⟨c, hc, rfl⟩ := hdm
  rcases h c hc with hp | hs
  · rw [toLower_of_isPunct c hp] at hdk
    simp [hp] at hdk
  · rw [toLower_of_isPySpace hs]
    exact hs

/-- Witness for C5: a concrete punctuation-and-whitespace string, and the
empty string, both tokenize to the empty sequence. -/
theorem text_to_words_of_punct_space_witness :
    (∀ c ∈ " .!? ,\t".toList, isPunct c = true ∨ isPySpace c = true)
    ∧ text_to_words " .!? ,\t".toList = []
    ∧ text_to_words "".toList = [] :=
  ⟨by decide, text_to_words_of_punct_space _ (by decide), rfl⟩

/-- C8: every token of `text_to_words` is non-empty and none of its
characters is whitespace, a punctuation-set character, or an uppercase ASCII
letter. -/
theorem text_to_words_token_invariants (t w : List Char) (hw : w ∈ text_to_words t) :
    w ≠ [] ∧ ∀ c ∈ w,
      isPySpace c = false ∧ isPunct c = false ∧ isUpperAscii c = false := by
  unfold text_to_words at hw
  obtain ⟨hne, hall⟩ := splitWs_mem_spec _ w hw
  refine ⟨hne, fun c hc => ?_⟩
  obtain ⟨hsp, hmem⟩ := hall c hc
  rw [List.mem_filter] at hmem
  obtain ⟨hmm, hk⟩ := hmem
  rw [List.mem_map] at hmm
  obtain ⟨c0, _, rfl⟩ := hmm
  exact ⟨hsp, by simpa using hk, isUpperAscii_toLower c0⟩

/-- Witness for C8: the token "hi" of the text "Hi there!" is non-empty and
free of whitespace, punctuation and uppercase ASCII letters. -/
theorem text_to_words_token_invariants_witness :
    "hi".toList ∈ text_to_words "Hi there!".toList
    ∧ ("hi".toList ≠ [] ∧ ∀ c ∈ "hi".toList,
        isPySpace c = false ∧ isPunct c = false ∧ isUpperAscii c = false) :=
  ⟨by decide, text_to_words_token_invariants "Hi there!".toList "hi".toList (by decide)⟩

/-- C3: valence scoring is additive over concatenation by a space, under the
precondition that tokenizing the concatenation yields the concatenation of
the two tokenizations. -/
theorem score_additive (a b : List Char) (L : List (List Char × Rat))
    (h : text_to_words (a ++ [' '] ++ b) = text_to_words a ++ text_to_words b) :
    score (a ++ [' '] ++ b) L = score a L + score b L := by
  unfold score
  rw [h, List.map_append, List.sum_append]

/-- Witness for C3: additivity on the concrete texts "Horrible," and
"bad day" over a two-entry lexicon. -/
theorem score_additive_witness :
    text_to_words ("Horrible,".toList ++ [' '] ++ "bad day".toList) =
      text_to_words "Horrible,".toList ++ text_to_words "bad day".toList
    ∧ score ("Horrible,".toList ++ [' '] ++ "bad day".toList)
        [("bad".toList, -3), ("horrible".toList, -3)] =
      score "Horrible,".toList [("bad".toList, -3), ("horrible".toList, -3)]
      + score "bad day".toList [("bad".toList, -3), ("horrible".toList, -3)] :=
  ⟨by decide,
    score_additive "Horrible,".toList "bad day".toList
      [("bad".toList, -3), ("horrible".toList, -3)] (by decide)⟩

/-- One-step unfolding of `splitWs` on a non-empty input. -/
theorem splitWs_cons (c : Char) (cs : List Char) :
    splitWs (c :: cs) =
      if isPySpace c = true then splitWs cs
      else if startsWord cs = true then
        match splitWs cs with
        | [] => [[c]]
        | w :: ws => (c :: w) :: ws
      else [c] :: splitWs cs := by
  simp only [splitWs]

/-- Splitting a non-empty all-non-whitespace block followed by a suffix that
does not start a word yields that block as the first word. -/
theorem splitWs_word_append (u : List Char) :
    ∀ v : List Char, u ≠ [] → (∀ c ∈ u, isPySpace c = false) →
      startsWord v = false → splitWs (u ++ v) = u :: splitWs v := by
  induction u with
  | nil => intro v h; exact absurd rfl h
  | cons x u' ih =>
    intro v _ hall hv
    have hx : isPySpace x = false := hall x (List.mem_cons_self _ _)
    cases u' with
    | nil =>
      show splitWs (x :: v) = [x] :: splitWs v
      rw [splitWs_cons, if_neg (by simp [hx]), if_neg (by simp [hv])]
    | cons y u'' =>
      have hrec := ih v (by simp)
        (fun c hc => hall c (List.mem_cons_of_mem _ hc)) hv
      have hy : isPySpace y = false := hall y (by simp)
      show splitWs (x :: ((y :: u'') ++ v)) = (x :: y :: u'') :: splitWs v
      rw [splitWs_cons, if_neg (by simp [hx]),
        if_pos (show startsWord ((y :: u'') ++ v) = true by simp [startsWord, hy]),
        hrec]

/-- After dropping the leading non-whitespace block, the rest does not start
a word: it is empty or starts with whitespace. -/
theorem startsWord_dropWhile (s : List Char) :
    startsWord (s.dropWhile (fun c => !isPySpace c)) = false := by
  have h := List.head?_dropWhile_not (fun c => !isPySpace c) s
  cases hv : s.dropWhile (fun c => !isPySpace c) with
  | nil => rfl
  | cons x xs =>
    rw [hv] at h
    simp only [List.head?_cons] at h
    simp [startsWord, h]

/-- Deleting punctuation from the lower-cased text can erase a whitespace
chunk entirely but can never split one, so the number of words can only go
down: the length-indexed induction behind C10. -/
theorem splitWs_clean_le_fuel :
    ∀ (n : Nat) (t : List Char), t.length ≤ n →
      (splitWs ((t.map Char.toLower).filter (fun c => !isPunct c))).length ≤
        (splitWs t).length := by
  intro n
  induction n with
  | zero =>
    intro t ht
    have hnil : t = [] := List.eq_nil_of_length_eq_zero (Nat.le_zero.mp ht)
    subst hnil
    simp
  | succ n ih =>
    intro t ht
    cases t with
    | nil => simp
    | cons c cs =>
      by_cases hc : isPySpace c = true
      · have hlow := toLower_of_isPySpace hc
        have hkeep : isPunct c = false := isPunct_eq_false_of_isPySpace c hc
        have hL : (((c :: cs).map Char.toLower).filter (fun d => !isPunct d)) =
            c :: ((cs.map Char.toLower).filter (fun d => !isPunct d)) := by
          simp only [List.map_cons, hlow, List.filter_cons]
          rw [if_pos (by simp [hkeep])]
        rw [hL]
        have hL2 : splitWs (c :: ((cs.map Char.toLower).filter (fun d => !isPunct d))) =
            splitWs ((cs.map Char.toLower).filter (fun d => !isPunct d)) := by
          simp only [splitWs]
          rw [if_pos hc]
        have hR : splitWs (c :: cs) = splitWs cs := by
          simp only [splitWs]
          rw [if_pos hc]
        rw [hL2, hR]
        exact ih cs (by simp only [List.length_cons] at ht; omega)
      · have hc' : isPySpace c = false := by simpa using hc
        have hsplit : (c :: cs) =
            (c :: cs).takeWhile (fun d => !isPySpace d)
              ++ (c :: cs).dropWhile (fun d => !isPySpace d) :=
          (List.takeWhile_append_dropWhile (fun d => !isPySpace d) _).symm
        have hw_ne : (c :: cs).takeWhile (fun d => !isPySpace d) ≠ [] := by
          rw [List.takeWhile_cons_of_pos (by simp [hc'])]
          simp
        have hw_all : ∀ d ∈ (c :: cs).takeWhile (fun d => !isPySpace d),
            isPySpace d = false := by
          intro d hd
          have := List.mem_takeWhile_imp hd
          simpa using this
        have hr_sw : startsWord ((c :: cs).dropWhile (fun d => !isPySpace d)) = false :=
          startsWord_dropWhile _
        have hRs : splitWs (c :: cs) =
            (c :: cs).takeWhile (fun d => !isPySpace d)
              :: splitWs ((c :: cs).dropWhile (fun d => !isPySpace d)) := by
          conv_lhs => rw [hsplit]
          exact splitWs_word_append _ _ hw_ne hw_all hr_sw
        have hGsplit : (((c :: cs).map Char.toLower).filter (fun d => !isPunct d)) =
            ((((c :: cs).takeWhile (fun d => !isPySpace d)).map Char.toLower).filter
              (fun d => !isPunct d))
            ++ ((((c :: cs).dropWhile (fun d => !isPySpace d)).map Char.toLower).filter
              (fun d => !isPunct d)) := by
          conv_lhs => rw [hsplit]
          rw [List.map_append, List.filter_append]
        have hgw_all : ∀ d ∈ ((((c :: cs).takeWhile (fun d => !isPySpace d)).map
            Char.toLower).filter (fun d => !isPunct d)), isPySpace d = false := by
          intro d hd
          rw [List.mem_filter] at hd
          obtain ⟨hdm, _⟩ := hd
          rw [List.mem_map] at hdm
          obtain ⟨c0, hc0, rfl⟩ := hdm
          rw [isPySpace_toLower]
          exact hw_all c0 hc0
        have hgr_sw : startsWord ((((c :: cs).dropWhile (fun d => !isPySpace d)).map
            Char.toLower).filter (fun d => !isPunct d)) = false := by
          cases hr : (c :: cs).dropWhile (fun d => !isPySpace d) with
          | nil => rfl
          | cons d r' =>
            have hd : isPySpace d = true := by
              have hsw := hr_sw
              rw [hr] at hsw
              simpa [startsWord] using hsw
            simp only [List.map_cons, toLower_of_isPySpace hd, List.filter_cons]
            rw [if_pos (by simp [isPunct_eq_false_of_isPySpace d hd])]
            simp [startsWord, hd]
        have hrlen : ((c :: cs).dropWhile (fun d => !isPySpace d)).length ≤ n := by
          have hlen : (c :: cs).length =
              ((c :: cs).takeWhile (fun d => !isPySpace d)).length
                + ((c :: cs).dropWhile (fun d => !isPySpace d)).length := by
            conv_lhs => rw [hsplit]
            rw [List.length_append]
          have hwpos : 0 < ((c :: cs).takeWhile (fun d => !isPySpace d)).length :=
            List.length_pos.mpr hw_ne
          have ht' : (c :: cs).length ≤ n + 1 := ht
          omega
        have hrec := ih _ hrlen
        rw [hRs, hGsplit]
        cases hgw : ((((c :: cs).takeWhile (fun d => !isPySpace d)).map
            Char.toLower).filter (fun d => !isPunct d)) with
        | nil =>
          simp only [List.nil_append, List.length_cons]
          exact Nat.le_succ_of_le hrec
        | cons e ge =>
          rw [← hgw,
            splitWs_word_append _ _ (by rw [hgw]; simp) hgw_all hgr_sw]
          simp only [List.length_cons]
          exact Nat.succ_le_succ hrec

/-- C10: for every input string the tokenizer returns at most `word_count`
many tokens: deleting punctuation can erase a whitespace-separated chunk
entirely but can never split one chunk into two. -/
theorem text_to_words_length_le_word_count (t : List Char) :
    (text_to_words t).length ≤ word_count t := by
  unfold text_to_words word_count
  exact splitWs_clean_le_fuel t.length t (le_refl _)

/-- C9: the count is bounded: it is non-negative and at most the number of
tokens of the text. -/
theorem count_occurences_le_length (text : List Char) (wordSet : List (List Char)) :
    0 ≤ count_occurences text wordSet
    ∧ count_occurences text wordSet ≤ (text_to_words text).length :=
  ⟨Nat.zero_le _, List.length_filter_le _ _⟩

end WordLists
